import Mathlib

/-!
Verification of the core of the sapf language server (`src/main.rs`).

The model represents Rust strings as `List Char`.  Rust's `&str` is UTF-8
encoded, and the server mixes byte-based and character-based indexing, so
the model carries the UTF-8 byte width of every character explicitly
(`charBytes`, matching `char::len_utf8`).  Hash maps are modelled as
association lists in which a later insertion shadows an earlier entry
(`mapLookup` finds the most recently prepended binding), which reproduces
the observable get/insert/extend behaviour of `std::collections::HashMap`
for the operations the server performs.  The Unicode character classes
`char::is_alphabetic`, `char::is_alphanumeric` and `char::is_whitespace`
are modelled by their ASCII restrictions (`Char.isAlpha`,
`Char.isAlphanum`, `Char.isWhitespace`); no theorem below depends on the
non-ASCII extent of those classes.  Fallible code (the panicking byte
slice in `completion`) returns `Except Unit`, with `Except.error ()`
standing for a panic.
-/

/-- UTF-8 byte width of a character, as Rust's `char::len_utf8`. -/
def charBytes (c : Char) : Nat :=
  if c.toNat < 128 then 1
  else if c.toNat < 2048 then 2
  else if c.toNat < 65536 then 3
  else 4

/-- UTF-8 byte length of a string, as Rust's `str::len`. -/
def utf8Len : List Char → Nat
  | [] => 0
  | c :: rest => charBytes c + utf8Len rest

/-- Association-list map lookup: the first (most recently inserted) binding
for the key wins, reproducing `HashMap::get` after a series of inserts. -/
def mapLookup {α β : Type} [DecidableEq α] : List (α × β) → α → Option β
  | [], _ => none
  | (k, v) :: rest, key => if k = key then some v else mapLookup rest key

/-- Splitting a string at newline characters (helper for `rustLines`). -/
def splitNl : List Char → List (List Char)
  | [] => [[]]
  | c :: rest =>
    let ps := splitNl rest
    if c = '\n' then [] :: ps
    else
      match ps with
      | [] => [[c]]
      | h :: t => (c :: h) :: t

/-- Removal of one trailing carriage return, as Rust's `str::lines` does per line. -/
def stripCr (l : List Char) : List Char :=
  if l.getLast? = some '\r' then l.dropLast else l

/-- Rust's `str::lines`: split on newline, drop a final empty segment
produced by a trailing newline, strip one trailing carriage return per line. -/
def rustLines (s : List Char) : List (List Char) :=
  let ps := splitNl s
  let ps2 := match ps.getLast? with
    | some [] => ps.dropLast
    | _ => ps
  ps2.map stripCr

/-- Rust's `&line[..n]`: keep the characters covered by the first `n` bytes.
Rust panics when `n` exceeds the byte length or is not a character
boundary; the model returns `Except.error ()` there. -/
def byteSliceTo : List Char → Nat → Except Unit (List Char)
  | _, 0 => Except.ok []
  | [], _ + 1 => Except.error ()
  | c :: rest, n + 1 =>
    if charBytes c ≤ n + 1 then
      match byteSliceTo rest (n + 1 - charBytes c) with
      | Except.ok pre => Except.ok (c :: pre)
      | Except.error e => Except.error e
    else Except.error ()

/-- Rust's `str::starts_with` on our string representation. -/
def strStartsWith : List Char → List Char → Bool
  | _, [] => true
  | [], _ :: _ => false
  | x :: xs, y :: ys => if x = y then strStartsWith xs ys else false

/-- Rust's `str::split_once('.')`: split at the first dot, if any. -/
def splitOnceDot : List Char → Option (List Char × List Char)
  | [] => none
  | c :: rest =>
    if c = '.' then some ([], rest)
    else
      match splitOnceDot rest with
      | none => none
      | some (a, b) => some (c :: a, b)

/-- Whitespace test used by `split_whitespace` and `str::trim`
(`char::is_whitespace`, modelled on its ASCII restriction). -/
def rustIsWhitespace (c : Char) : Bool := c.isWhitespace

/-- Rust's `str::trim`: drop leading and trailing whitespace. -/
def trimChars (l : List Char) : List Char :=
  ((l.dropWhile rustIsWhitespace).reverse.dropWhile rustIsWhitespace).reverse

/-- Fuelled worker for `splitWS`; the fuel is the input length, and each
step consumes at least one character. -/
def splitWSFuel : Nat → List Char → List (List Char)
  | 0, _ => []
  | _ + 1, [] => []
  | fuel + 1, c :: rest =>
    if rustIsWhitespace c then splitWSFuel fuel rest
    else
      (c :: rest.takeWhile (fun x => !rustIsWhitespace x)) ::
        splitWSFuel fuel (rest.dropWhile (fun x => !rustIsWhitespace x))

/-- Rust's `str::split_whitespace`: maximal whitespace-free runs, empties discarded. -/
def splitWS (l : List Char) : List (List Char) := splitWSFuel l.length l

/-- One category of the knowledge base: `CategoryData` in `main.rs`. -/
structure CategoryData where
  description : List Char
  items : List (List Char × List Char)
deriving DecidableEq

/-- The knowledge base: `categories: HashMap<String, CategoryData>`. -/
abbrev Cats := List (List Char × CategoryData)

/-- A flattened keyword map: `HashMap<String, String>`. -/
abbrev KwMap := List (List Char × List Char)

/-- The document store: `documents: HashMap<Url, String>` (uris as strings). -/
abbrev DocStore := List (List Char × List Char)

/-- Lookup of a document's current text: `Backend::get_document_content`. -/
def get_document_content (docs : DocStore) (uri : List Char) : Option (List Char) :=
  mapLookup docs uri

/-- Insertion of all bindings of `items` into `m`, later entries shadowing
earlier ones: `HashMap::extend`. -/
def extendMap (m : KwMap) (items : List (List Char × List Char)) : KwMap :=
  items.foldl (fun acc kv => kv :: acc) m

/-- Flattened view of every category's items: `Backend::get_all_keywords`. -/
def get_all_keywords (cats : Cats) : KwMap :=
  cats.foldl (fun acc p => extendMap acc p.2.items) []

/-- Handler for `textDocument/didOpen`: unconditional insert of the full text. -/
def did_open (docs : DocStore) (uri text : List Char) : DocStore :=
  (uri, text) :: docs

/-- One entry of a `didChange` batch; the handler reads only its `text`
field (full-document sync), so the range fields are not modelled. -/
structure ContentChange where
  text : List Char
deriving DecidableEq

/-- Handler for `textDocument/didChange`: store the text of the last entry
of the batch, if any. -/
def did_change (docs : DocStore) (uri : List Char) (changes : List ContentChange) : DocStore :=
  match changes.getLast? with
  | none => docs
  | some c => (uri, c.text) :: docs

/-- Worker loop of `get_word_at_position`: walk the whitespace-split words,
assuming each word starts one position after the previous word's end;
`word_end = current_pos + word.len()` uses the UTF-8 byte length. -/
def gwapLoop (ch : Nat) : Nat → List (List Char) → Option (List Char)
  | _, [] => none
  | curPos, w :: ws =>
    if curPos ≤ ch ∧ ch ≤ curPos + utf8Len w then some w
    else gwapLoop ch (curPos + utf8Len w + 1) ws

/-- `get_word_at_position` from `main.rs`. -/
def get_word_at_position (content : List Char) (line ch : Nat) : Option (List Char) :=
  match (rustLines content)[line]? with
  | none => none
  | some l => gwapLoop ch 0 (splitWS l)

/-- Operator characters recognised by the scanner: `+ - * / =`. -/
def isOpChar (c : Char) : Bool :=
  decide (c = '+') || decide (c = '-') || decide (c = '*') || decide (c = '/') ||
    decide (c = '=')

/-- Continuation characters of a numeric run: ASCII digits and dots. -/
def isNumCont (c : Char) : Bool := c.isDigit || decide (c = '.')

/-- Models `char::is_alphabetic` (ASCII restriction, see the header note). -/
def rustIsAlphabetic (c : Char) : Bool := c.isAlpha

/-- Models `char::is_alphanumeric` (ASCII restriction, see the header note). -/
def rustIsAlphanumeric (c : Char) : Bool := c.isAlphanum

/-- Continuation characters of a word run: alphanumerics and underscore. -/
def wordCont (c : Char) : Bool := rustIsAlphanumeric c || decide (c = '_')

/-- A classified span produced by the scanner's first pass.  In `main.rs`
these are `SemanticToken`s whose `delta_line`/`delta_start` fields hold the
absolute line and column until the second (delta-encoding) pass; token
types follow the legend: 0 = FUNCTION, 1 = OPERATOR, 2 = NUMBER. -/
structure Span where
  line : Nat
  start : Nat
  length : Nat
  tokenType : Nat
deriving DecidableEq

/-- The per-line scanner loop of `semantic_tokens_full`, fuelled by the
input length (each step consumes at least one character, so `cs.length`
fuel scans the whole line).  Branches mirror the Rust `match`: operators,
numeric runs, word runs (emitted only for known keywords, with byte
lengths), and a one-column skip for anything else. -/
def scanStep (kw : KwMap) (ln : Nat) : Nat → List Char → Nat → List Span
  | 0, _, _ => []
  | _ + 1, [], _ => []
  | fuel + 1, c :: rest, offset =>
    if isOpChar c then
      ⟨ln, offset, 1, 1⟩ :: scanStep kw ln fuel rest (offset + 1)
    else if c.isDigit then
      ⟨ln, offset, 1 + (rest.takeWhile isNumCont).length, 2⟩ ::
        scanStep kw ln fuel (rest.dropWhile isNumCont)
          (offset + (1 + (rest.takeWhile isNumCont).length))
    else if rustIsAlphabetic c then
      (if (mapLookup kw (c :: rest.takeWhile wordCont)).isSome then
        [⟨ln, offset, utf8Len (c :: rest.takeWhile wordCont), 0⟩]
      else []) ++
        scanStep kw ln fuel (rest.dropWhile wordCont)
          (offset + utf8Len (c :: rest.takeWhile wordCont))
    else
      scanStep kw ln fuel rest (offset + 1)

/-- Scan of one line from column 0. -/
def scanLine (kw : KwMap) (ln : Nat) (cs : List Char) : List Span :=
  scanStep kw ln cs.length cs 0

/-- First pass of `semantic_tokens_full`: scan every line of the document
in order, tagging spans with their line index. -/
def scanDocument (kw : KwMap) (content : List Char) : List Span :=
  ((rustLines content).enum.map (fun p => scanLine kw p.1 p.2)).flatten

/-- A delta-encoded semantic token as sent on the wire. -/
structure SemTok where
  deltaLine : Nat
  deltaStart : Nat
  length : Nat
  tokenType : Nat
  modifiersBitset : Nat
deriving DecidableEq

/-- Second pass of `semantic_tokens_full`: carry the previous emitted
token's (line, start); same line yields `(0, start - prevStart)`, a new
line yields `(line - prevLine, start)`. -/
def encodeLoop : Nat → Nat → List Span → List SemTok
  | _, _, [] => []
  | curLine, curStart, t :: rest =>
    (if t.line = curLine then (⟨0, t.start - curStart, t.length, t.tokenType, 0⟩ : SemTok)
     else ⟨t.line - curLine, t.start, t.length, t.tokenType, 0⟩) ::
      encodeLoop t.line t.start rest

/-- Delta encoding with the initial previous position (line 0, column 0). -/
def encodeDeltas (spans : List Span) : List SemTok := encodeLoop 0 0 spans

/-- Handler for `textDocument/semanticTokens/full`: `None` for an unknown
document, otherwise the delta-encoded scan of the whole document. -/
def semantic_tokens_full (cats : Cats) (docs : DocStore) (uri : List Char) :
    Option (List SemTok) :=
  (get_document_content docs uri).map
    (fun content => encodeDeltas (scanDocument (get_all_keywords cats) content))

/-- Handler for `textDocument/hover`: word at the cursor, looked up first
among category names (yielding the description), then among all keywords. -/
def hover (cats : Cats) (docs : DocStore) (uri : List Char) (line ch : Nat) :
    Option (List Char) :=
  match get_document_content docs uri with
  | none => none
  | some content =>
    match get_word_at_position content line ch with
    | none => none
    | some w =>
      match mapLookup cats w with
      | some cd => some cd.description
      | none => mapLookup (get_all_keywords cats) w

/-- Kind of a completion item: `MODULE` for categories, `KEYWORD` for keywords. -/
inductive ItemKind where
  | moduleItem
  | keywordItem
deriving DecidableEq

/-- A completion item; `retrigger` records the presence of the
`editor.action.triggerSuggest` command attached to category items. -/
structure CompletionItem where
  label : List Char
  kind : ItemKind
  documentation : List Char
  insertText : List Char
  retrigger : Bool
deriving DecidableEq

/-- Category completions: every category whose name starts with the line
prefix, inserting `"<name>."` and retriggering completion. -/
def categoryItems (cats : Cats) (pre : List Char) : List CompletionItem :=
  cats.filterMap fun p =>
    if strStartsWith p.1 pre then
      some ⟨p.1, ItemKind.moduleItem, p.2.description, p.1 ++ ['.'], true⟩
    else none

/-- Keyword completions inside a known category: items whose key starts
with the trimmed item-portion of the prefix. -/
def keywordItemsOfCat (cd : CategoryData) (ip : List Char) : List CompletionItem :=
  cd.items.filterMap fun kv =>
    if strStartsWith kv.1 (trimChars ip) then
      some ⟨kv.1, ItemKind.keywordItem, kv.2, kv.1, false⟩
    else none

/-- Keyword completions over the flattened keyword map (dot-free prefixes). -/
def allKeywordItems (cats : Cats) (pre : List Char) : List CompletionItem :=
  (get_all_keywords cats).filterMap fun kv =>
    if strStartsWith kv.1 pre then
      some ⟨kv.1, ItemKind.keywordItem, kv.2, kv.1, false⟩
    else none

/-- Handler for `textDocument/completion`.  The `Except` layer records the
panic of `&line[..position.character]`; the `Option` layer mirrors the
`Option<CompletionResponse>` of the Rust return type, which this handler
always fills with `Some` when it returns. -/
def completion (cats : Cats) (docs : DocStore) (uri : List Char) (line ch : Nat) :
    Except Unit (Option (List CompletionItem)) :=
  match get_document_content docs uri with
  | none => Except.ok (some [])
  | some content =>
    match (rustLines content)[line]? with
    | none => Except.ok (some [])
    | some l =>
      match byteSliceTo l ch with
      | Except.error _ => Except.error ()
      | Except.ok pre =>
        match splitOnceDot pre with
        | some cp =>
          match mapLookup cats cp.1 with
          | some cd =>
            Except.ok (some (categoryItems cats pre ++ keywordItemsOfCat cd cp.2))
          | none => Except.ok (some (categoryItems cats pre))
        | none => Except.ok (some (categoryItems cats pre ++ allKeywordItems cats pre))

/-- Synthetic word positions as `get_word_at_position` computes them: the
first word is assumed to start at position 0 and each subsequent word one
past the previous word's assumed end (`current_pos = word_end + 1`), the
end being start plus the word's UTF-8 byte length. -/
def wordsWithSyn : Nat → List (List Char) → List (List Char × Nat)
  | _, [] => []
  | pos, w :: ws => (w, pos) :: wordsWithSyn (pos + utf8Len w + 1) ws

/-- Spec-side definition, following the claim's words: the
whitespace-delimited tokens of a line, each paired with its actual
zero-based character start position within the line. -/
def wordsActualFuel : Nat → Nat → List Char → List (List Char × Nat)
  | 0, _, _ => []
  | _ + 1, _, [] => []
  | fuel + 1, pos, c :: rest =>
    if rustIsWhitespace c then wordsActualFuel fuel (pos + 1) rest
    else
      (c :: rest.takeWhile (fun x => !rustIsWhitespace x), pos) ::
        wordsActualFuel fuel
          (pos + (c :: rest.takeWhile (fun x => !rustIsWhitespace x)).length)
          (rest.dropWhile (fun x => !rustIsWhitespace x))

/-- Spec-side word/position list for a whole line (see `wordsActualFuel`). -/
def wordsActual (l : List Char) : List (List Char × Nat) :=
  wordsActualFuel l.length 0 l

/-- Claim C1 (code bug): the spec requires that a completion request whose
column exceeds the line's length, or falls inside a multi-byte character,
does not crash and yields an empty list; the handler instead panics in
`&line[..position.character]`.  With document text `"ab"` a request at
column 5 panics, and with text `"é"` a request at column 1 slices inside
the two-byte character and panics as well. -/
theorem completion_out_of_range_column_crashes :
    completion [] (did_open [] ("u".toList) ("ab".toList)) ("u".toList) 0 5 =
      Except.error () ∧
    completion [] (did_open [] ("u".toList) ("é".toList)) ("u".toList) 0 1 =
      Except.error () :=
  ⟨rfl, rfl⟩

/-- Claim C6: opening a document and reading it back returns exactly the
opened text, and a subsequent whole-document change followed by a read
returns exactly the new text, never a merge. -/
theorem document_store_round_trip (docs : DocStore) (uri T T2 : List Char) :
    get_document_content (did_open docs uri T) uri = some T ∧
    get_document_content (did_change (did_open docs uri T) uri [⟨T2⟩]) uri = some T2 := by
  refine ⟨?_, ?_⟩
  · simp [get_document_content, did_open, mapLookup]
  · simp [get_document_content, did_open, did_change, mapLookup, List.getLast?]

/-- Claim C7: a change notification overwrites the stored text with the
full-document text of the last entry of the batch, and any two batches
with the same last entry produce the same store, so no earlier entry
affects the stored text. -/
theorem did_change_takes_last (docs : DocStore) (uri : List Char)
    (changes : List ContentChange) (c : ContentChange)
    (h : changes.getLast? = some c) :
    get_document_content (did_change docs uri changes) uri = some c.text ∧
    ∀ changes2 : List ContentChange, changes2.getLast? = some c →
      did_change docs uri changes2 = did_change docs uri changes := by
  refine ⟨?_, ?_⟩
  · unfold did_change
    rw [h]
    simp [get_document_content, mapLookup]
  · intro cs2 h2
    unfold did_change
    rw [h, h2]

/-- Witness for claim C7: a concrete two-entry batch whose last entry is
`"B"`; the store holds `"B"` afterwards and the one-entry batch `["B"]`
yields the same store. -/
theorem did_change_takes_last_witness :
    ([⟨"A".toList⟩, ⟨"B".toList⟩] : List ContentChange).getLast? =
        some ⟨"B".toList⟩ ∧
    (get_document_content
        (did_change [] ("u".toList) [⟨"A".toList⟩, ⟨"B".toList⟩]) ("u".toList) =
          some ("B".toList) ∧
      ∀ changes2 : List ContentChange, changes2.getLast? = some ⟨"B".toList⟩ →
        did_change [] ("u".toList) changes2 =
          did_change [] ("u".toList) [⟨"A".toList⟩, ⟨"B".toList⟩]) :=
  ⟨rfl, did_change_takes_last [] ("u".toList) [⟨"A".toList⟩, ⟨"B".toList⟩]
    ⟨"B".toList⟩ rfl⟩

/-- Worker equivalence: the word walk of `get_word_at_position` returns
the first word whose synthetic range contains the column. -/
theorem gwapLoop_eq_find (ch : Nat) : ∀ (ws : List (List Char)) (pos : Nat),
    gwapLoop ch pos ws =
      (List.find? (fun p => decide (p.2 ≤ ch ∧ ch ≤ p.2 + utf8Len p.1))
        (wordsWithSyn pos ws)).map Prod.fst := by
  intro ws
  induction ws with
  | nil => intro pos; rfl
  | cons w ws ih =>
    intro pos
    simp only [gwapLoop, wordsWithSyn]
    by_cases h : pos ≤ ch ∧ ch ≤ pos + utf8Len w
    · rw [if_pos h, List.find?_cons]
      simp [h]
    · rw [if_neg h, List.find?_cons]
      simp only [Prod.fst, Prod.snd, decide_eq_false h]
      exact ih _

/-- Claim C2 (amended): word-at-position splits the requested line on
whitespace and returns the first token whose synthetic range
`[start, start + length]` contains the column inclusively on both ends,
where the first token's start is taken to be 0, each later token's start
one past the previous token's synthetic end, and length is the token's
UTF-8 byte length; it returns nothing when the line index is out of range
or no synthetic range contains the column. -/
theorem word_at_position_characterization (content : List Char) (line ch : Nat) :
    get_word_at_position content line ch =
      ((rustLines content)[line]?).bind fun l =>
        (List.find? (fun p => decide (p.2 ≤ ch ∧ ch ≤ p.2 + utf8Len p.1))
          (wordsWithSyn 0 (splitWS l))).map Prod.fst := by
  unfold get_word_at_position
  cases h : (rustLines content)[line]? with
  | none => rfl
  | some l => exact gwapLoop_eq_find ch (splitWS l) 0

/-- Claim C2 counterexample: in the line `"a   bcd"` (three spaces), the
token `"bcd"` actually spans characters 4 through 6, so column 6 is
strictly inside its character span, yet `get_word_at_position` returns
nothing, because its position bookkeeping assumes a single whitespace
character between tokens. -/
theorem word_at_position_strict_inside_fails :
    (("bcd".toList, 4) ∈ wordsActual ("a   bcd".toList)) ∧
    4 < 6 ∧ 6 < 4 + ("bcd".toList).length ∧
    get_word_at_position ("a   bcd".toList) 0 6 = none := by
  decide

/-- Lookup after `HashMap::extend`: either the key occurs in the inserted
items and the result is one of those items' values, or it does not and the
base map answers. -/
theorem extendMap_lookup (k : List Char) :
    ∀ (items : List (List Char × List Char)) (m : KwMap),
      (mapLookup (extendMap m items) k = mapLookup m k ∧ ∀ v, (k, v) ∉ items) ∨
      (∃ v, mapLookup (extendMap m items) k = some v ∧ (k, v) ∈ items) := by
  intro items
  induction items with
  | nil =>
    intro m
    left
    exact ⟨rfl, by simp⟩
  | cons kv rest ih =>
    intro m
    obtain ⟨a, b⟩ := kv
    rcases ih ((a, b) :: m) with ⟨heq, hnot⟩ | ⟨v, hv, hmem⟩
    · by_cases hk : a = k
      · right
        refine ⟨b, ?_, ?_⟩
        · show mapLookup (extendMap ((a, b) :: m) rest) k = some b
          rw [heq]
          simp [mapLookup, hk]
        · rw [← hk]
          exact List.mem_cons_self _ _
      · left
        refine ⟨?_, ?_⟩
        · show mapLookup (extendMap ((a, b) :: m) rest) k = mapLookup m k
          rw [heq]
          simp [mapLookup, hk]
        · intro v hv2
          rcases List.mem_cons.mp hv2 with heq2 | hmem2
          · injection heq2 with h1 h2
            exact hk h1.symm
          · exact hnot v hmem2
    · right
      exact ⟨v, hv, List.mem_cons_of_mem _ hmem⟩

/-- Lookup in the fold that builds `get_all_keywords`: either some category
contributes the key, and the answer is one of the contributing values, or
no category contains it and the accumulator answers. -/
theorem get_all_keywords_lookup (k : List Char) :
    ∀ (cats : Cats) (acc : KwMap),
      (mapLookup (cats.foldl (fun a p => extendMap a p.2.items) acc) k = mapLookup acc k ∧
        ∀ p ∈ cats, ∀ v, (k, v) ∉ p.2.items) ∨
      (∃ v, mapLookup (cats.foldl (fun a p => extendMap a p.2.items) acc) k = some v ∧
        ∃ q ∈ cats, (k, v) ∈ q.2.items) := by
  intro cats
  induction cats with
  | nil =>
    intro acc
    left
    exact ⟨rfl, by simp⟩
  | cons p rest ih =>
    intro acc
    rcases ih (extendMap acc p.2.items) with ⟨heq, hnot⟩ | ⟨v, hv, q, hq, hmem⟩
    · rcases extendMap_lookup k p.2.items acc with ⟨heq2, hnot2⟩ | ⟨v, hv2, hmem2⟩
      · left
        refine ⟨heq.trans heq2, ?_⟩
        intro q hq v
        rcases List.mem_cons.mp hq with rfl | hq2
        · exact hnot2 v
        · exact hnot q hq2 v
      · right
        exact ⟨v, heq.trans hv2, p, List.mem_cons_self _ _, hmem2⟩
    · right
      exact ⟨v, hv, q, List.mem_cons_of_mem _ hq, hmem⟩

/-- Claim C8: every keyword present in some category's item list is present
in the flattened map built by `get_all_keywords`, bound to the
documentation that some category gives it — never absent. -/
theorem all_keywords_complete (cats : Cats) (p : List Char × CategoryData)
    (k d : List Char) (hp : p ∈ cats) (hkd : (k, d) ∈ p.2.items) :
    ∃ v, mapLookup (get_all_keywords cats) k = some v ∧
      ∃ q ∈ cats, (k, v) ∈ q.2.items := by
  rcases get_all_keywords_lookup k cats [] with ⟨heq, hnot⟩ | ⟨v, hv, hq⟩
  · exact absurd hkd (hnot p hp d)
  · exact ⟨v, hv, hq⟩

/-- The scenario knowledge base of the spec: one category `"math"` with a
single item `"add"`. -/
def catsEx : Cats :=
  [("math".toList,
    ⟨"Math operators".toList, [("add".toList, "Adds two numbers".toList)]⟩)]

/-- Witness for claim C8: in the scenario knowledge base, the keyword
`"add"` of category `"math"` is found in the flattened map. -/
theorem all_keywords_complete_witness :
    (("math".toList,
      (⟨"Math operators".toList,
        [("add".toList, "Adds two numbers".toList)]⟩ : CategoryData)) ∈ catsEx) ∧
    (("add".toList, "Adds two numbers".toList) ∈
      (⟨"Math operators".toList,
        [("add".toList, "Adds two numbers".toList)]⟩ : CategoryData).items) ∧
    ∃ v, mapLookup (get_all_keywords catsEx) ("add".toList) = some v ∧
      ∃ q ∈ catsEx, ("add".toList, v) ∈ q.2.items :=
  ⟨by decide, by decide,
    all_keywords_complete catsEx
      ("math".toList,
        ⟨"Math operators".toList, [("add".toList, "Adds two numbers".toList)]⟩)
      ("add".toList) ("Adds two numbers".toList) (by decide) (by decide)⟩

/-- Every UTF-8 character occupies at least one byte. -/
theorem one_le_charBytes (c : Char) : 1 ≤ charBytes c := by
  unfold charBytes
  split_ifs <;> omega

/-- A nonempty string has positive byte length. -/
theorem utf8Len_pos (c : Char) (l : List Char) : 0 < utf8Len (c :: l) := by
  have := one_le_charBytes c
  simp only [utf8Len]
  omega

/-- ASCII digits are not operator characters, so the scanner's digit branch
is reached whenever the current character is a digit. -/
theorem digit_not_op (c : Char) (h : c.isDigit = true) : isOpChar c = false := by
  cases hx : isOpChar c with
  | false => rfl
  | true =>
    exfalso
    unfold isOpChar at hx
    simp only [Bool.or_eq_true, decide_eq_true_eq] at hx
    rcases hx with ((((h1 | h1) | h1) | h1) | h1) <;> subst h1 <;>
      exact absurd h (by decide)

/-- Claim C4: on meeting an ASCII digit the scanner emits exactly one
NUMBER span (token type 2) covering the maximal following run of ASCII
digits and dots — multiple dots included — consumes precisely that run,
and resumes scanning right after it with the offset advanced by the run's
length. -/
theorem scanner_number_run (kw : KwMap) (ln fuel : Nat) (c : Char)
    (rest : List Char) (offset : Nat) (h : c.isDigit = true) :
    scanStep kw ln (fuel + 1) (c :: rest) offset =
      ⟨ln, offset, 1 + (rest.takeWhile isNumCont).length, 2⟩ ::
        scanStep kw ln fuel (rest.dropWhile isNumCont)
          (offset + (1 + (rest.takeWhile isNumCont).length)) ∧
    rest.takeWhile isNumCont ++ rest.dropWhile isNumCont = rest ∧
    (∀ x ∈ rest.takeWhile isNumCont, isNumCont x = true) ∧
    (∀ x, (rest.dropWhile isNumCont).head? = some x → isNumCont x = false) := by
  refine ⟨?_, List.takeWhile_append_dropWhile _ _, ?_, ?_⟩
  · have hop : isOpChar c = false := digit_not_op c h
    simp only [scanStep, hop, h]
    simp
  · intro x hx
    exact List.mem_takeWhile_imp hx
  · intro x hx
    have h2 := List.head?_dropWhile_not isNumCont rest
    rw [hx] at h2
    exact h2

/-- Witness for claim C4: scanning `"12..3x"` at the digit `'1'` emits one
NUMBER span of length 5 covering `"12..3"` (with its two dots) and resumes
at `"x"`. -/
theorem scanner_number_run_witness :
    ('1'.isDigit = true) ∧
    scanStep [] 0 (5 + 1) ('1' :: "2..3x".toList) 0 =
      ⟨0, 0, 1 + (("2..3x".toList).takeWhile isNumCont).length, 2⟩ ::
        scanStep [] 0 5 (("2..3x".toList).dropWhile isNumCont)
          (0 + (1 + (("2..3x".toList).takeWhile isNumCont).length)) :=
  ⟨by decide, (scanner_number_run [] 0 5 '1' ("2..3x".toList) 0 (by decide)).1⟩

/-- Strict ordering of spans: strictly increasing starts and no overlap. -/
def spanOrd (a b : Span) : Prop :=
  a.start < b.start ∧ a.start + a.length ≤ b.start

/-- Every span the scanner emits starts at or after the current offset and
has positive length. -/
theorem scanStep_mem (kw : KwMap) (ln : Nat) :
    ∀ (fuel : Nat) (cs : List Char) (offset : Nat) (s : Span),
      s ∈ scanStep kw ln fuel cs offset → offset ≤ s.start ∧ 0 < s.length := by
  intro fuel
  induction fuel with
  | zero =>
    intro cs offset s hs
    simp [scanStep] at hs
  | succ f ih =>
    intro cs offset s hs
    cases cs with
    | nil => simp [scanStep] at hs
    | cons c rest =>
      simp only [scanStep] at hs
      by_cases h1 : isOpChar c = true
      · rw [if_pos h1] at hs
        rcases List.mem_cons.mp hs with rfl | hs2
        · exact ⟨Nat.le_refl _, Nat.one_pos⟩
        · have h2 := ih rest (offset + 1) s hs2
          exact ⟨Nat.le_trans (Nat.le_add_right _ _) h2.1, h2.2⟩
      · rw [if_neg h1] at hs
        by_cases h2 : c.isDigit = true
        · rw [if_pos h2] at hs
          rcases List.mem_cons.mp hs with rfl | hs2
          · exact ⟨Nat.le_refl _, Nat.add_pos_left Nat.one_pos _⟩
          · have h3 := ih _ _ s hs2
            exact ⟨Nat.le_trans (Nat.le_add_right _ _) h3.1, h3.2⟩
        · rw [if_neg h2] at hs
          by_cases h3 : rustIsAlphabetic c = true
          · rw [if_pos h3] at hs
            rcases List.mem_append.mp hs with hs2 | hs2
            · by_cases h4 : (mapLookup kw (c :: rest.takeWhile wordCont)).isSome = true
              · rw [if_pos h4] at hs2
                rcases List.mem_singleton.mp hs2 with rfl
                exact ⟨Nat.le_refl _, utf8Len_pos c _⟩
              · rw [if_neg h4] at hs2
                simp at hs2
            · have h5 := ih _ _ s hs2
              exact ⟨Nat.le_trans (Nat.le_add_right _ _) h5.1, h5.2⟩
          · rw [if_neg h3] at hs
            have h4 := ih rest (offset + 1) s hs
            exact ⟨Nat.le_trans (Nat.le_add_right _ _) h4.1, h4.2⟩

/-- The scanner's output is pairwise ordered: any earlier span starts
strictly before, and ends at or before the start of, any later span. -/
theorem scanStep_pairwise (kw : KwMap) (ln : Nat) :
    ∀ (fuel : Nat) (cs : List Char) (offset : Nat),
      List.Pairwise spanOrd (scanStep kw ln fuel cs offset) := by
  intro fuel
  induction fuel with
  | zero => intro cs offset; simp [scanStep]
  | succ f ih =>
    intro cs offset
    cases cs with
    | nil => simp [scanStep]
    | cons c rest =>
      simp only [scanStep]
      by_cases h1 : isOpChar c = true
      · rw [if_pos h1]
        refine List.pairwise_cons.mpr ⟨?_, ih _ _⟩
        intro b hb
        obtain ⟨hb1, hb2⟩ := scanStep_mem kw ln f rest (offset + 1) b hb
        refine ⟨?_, ?_⟩
        · show offset < b.start
          omega
        · show offset + 1 ≤ b.start
          exact hb1
      · rw [if_neg h1]
        by_cases h2 : c.isDigit = true
        · rw [if_pos h2]
          refine List.pairwise_cons.mpr ⟨?_, ih _ _⟩
          intro b hb
          obtain ⟨hb1, hb2⟩ :=
            scanStep_mem kw ln f (rest.dropWhile isNumCont)
              (offset + (1 + (rest.takeWhile isNumCont).length)) b hb
          refine ⟨?_, ?_⟩
          · show offset < b.start
            omega
          · show offset + (1 + (rest.takeWhile isNumCont).length) ≤ b.start
            exact hb1
        · rw [if_neg h2]
          by_cases h3 : rustIsAlphabetic c = true
          · rw [if_pos h3]
            by_cases h4 : (mapLookup kw (c :: rest.takeWhile wordCont)).isSome = true
            · rw [if_pos h4]
              rw [List.singleton_append]
              refine List.pairwise_cons.mpr ⟨?_, ih _ _⟩
              intro b hb
              obtain ⟨hb1, hb2⟩ :=
                scanStep_mem kw ln f (rest.dropWhile wordCont)
                  (offset + utf8Len (c :: rest.takeWhile wordCont)) b hb
              have h5 := utf8Len_pos c (rest.takeWhile wordCont)
              refine ⟨?_, ?_⟩
              · show offset < b.start
                omega
              · show offset + utf8Len (c :: rest.takeWhile wordCont) ≤ b.start
                exact hb1
            · rw [if_neg h4]
              rw [List.nil_append]
              exact ih _ _
          · rw [if_neg h3]
            exact ih _ _

/-- Claim C5: scanning a line is deterministic, and the spans it produces
have strictly increasing start columns and never overlap (each span ends
at or before the next span's start). -/
theorem scanner_spans_ordered (kw : KwMap) (ln : Nat) (cs : List Char) :
    scanLine kw ln cs = scanLine kw ln cs ∧
    List.Pairwise spanOrd (scanLine kw ln cs) :=
  ⟨rfl, scanStep_pairwise kw ln cs.length cs 0⟩

/-- The delta-encoding rule in the spec's words: each span is paired with
the previous emitted span (line 0, column 0 when there is none); a span on
the same line as its predecessor gets `deltaLine = 0` and `deltaStart`
equal to its start minus the predecessor's start, and a span on a
different line gets `deltaLine` equal to its line minus the predecessor's
line and `deltaStart` equal to its absolute start column. -/
def specDeltaRule (spans : List Span) : List SemTok :=
  (spans.zip ((⟨0, 0, 0, 0⟩ : Span) :: spans)).map fun pt =>
    if pt.1.line = pt.2.line then
      ⟨0, pt.1.start - pt.2.start, pt.1.length, pt.1.tokenType, 0⟩
    else
      ⟨pt.1.line - pt.2.line, pt.1.start, pt.1.length, pt.1.tokenType, 0⟩

/-- The stateful encoding loop equals the zip-with-predecessor form. -/
theorem encodeLoop_zip :
    ∀ (spans : List Span) (p : Span),
      encodeLoop p.line p.start spans =
        (spans.zip (p :: spans)).map fun pt =>
          if pt.1.line = pt.2.line then
            (⟨0, pt.1.start - pt.2.start, pt.1.length, pt.1.tokenType, 0⟩ : SemTok)
          else
            ⟨pt.1.line - pt.2.line, pt.1.start, pt.1.length, pt.1.tokenType, 0⟩ := by
  intro spans
  induction spans with
  | nil => intro p; rfl
  | cons t rest ih =>
    intro p
    simp only [encodeLoop, List.zip_cons_cons, List.map_cons]
    rw [ih t]

/-- The code's two-pass encoding satisfies the spec's delta rule. -/
theorem encodeDeltas_eq_specDeltaRule (spans : List Span) :
    encodeDeltas spans = specDeltaRule spans :=
  encodeLoop_zip spans ⟨0, 0, 0, 0⟩

/-- Claim C3: for every stored document, the semantic-tokens operation
encodes the scanner's spans so that a span on a different line than the
previously emitted token gets `deltaLine` equal to its line minus the
previous token's line and `deltaStart` equal to its absolute column, while
a span on the same line as the previous token gets `deltaLine = 0` and
`deltaStart` equal to its start column minus the previous token's start
column (the very first token being measured against line 0, column 0). -/
theorem semantic_tokens_delta_rule (cats : Cats) (docs : DocStore)
    (uri content : List Char)
    (h : get_document_content docs uri = some content) :
    semantic_tokens_full cats docs uri =
      some (specDeltaRule (scanDocument (get_all_keywords cats) content)) := by
  unfold semantic_tokens_full
  rw [h]
  simp [encodeDeltas_eq_specDeltaRule]

/-- Witness for claim C3: the spec's scenario document `"math.add 1 2"`
under the scenario knowledge base. -/
theorem semantic_tokens_delta_rule_witness :
    semantic_tokens_full catsEx
        (did_open [] ("u".toList) ("math.add 1 2".toList)) ("u".toList) =
      some (specDeltaRule
        (scanDocument (get_all_keywords catsEx) ("math.add 1 2".toList))) :=
  semantic_tokens_delta_rule catsEx
    (did_open [] ("u".toList) ("math.add 1 2".toList))
    ("u".toList) ("math.add 1 2".toList) rfl

/-- Every category completion item is a module item whose label starts
with the line prefix. -/
theorem mem_categoryItems (cats : Cats) (pre : List Char) (it : CompletionItem)
    (h : it ∈ categoryItems cats pre) :
    it.kind = ItemKind.moduleItem ∧ strStartsWith it.label pre = true := by
  unfold categoryItems at h
  rcases List.mem_filterMap.mp h with ⟨p, hp, hf⟩
  by_cases hs : strStartsWith p.1 pre = true
  · rw [if_pos hs] at hf
    obtain rfl := Option.some.inj hf
    exact ⟨rfl, hs⟩
  · rw [if_neg hs] at hf
    cases hf

/-- Every in-category keyword completion item is a keyword item whose
label starts with the trimmed item-portion of the prefix. -/
theorem mem_keywordItemsOfCat (cd : CategoryData) (ip : List Char)
    (it : CompletionItem) (h : it ∈ keywordItemsOfCat cd ip) :
    it.kind = ItemKind.keywordItem ∧
      strStartsWith it.label (trimChars ip) = true := by
  unfold keywordItemsOfCat at h
  rcases List.mem_filterMap.mp h with ⟨kv, hkv, hf⟩
  by_cases hs : strStartsWith kv.1 (trimChars ip) = true
  · rw [if_pos hs] at hf
    obtain rfl := Option.some.inj hf
    exact ⟨rfl, hs⟩
  · rw [if_neg hs] at hf
    cases hf

/-- Every flattened-map keyword completion item is a keyword item whose
label starts with the raw line prefix. -/
theorem mem_allKeywordItems (cats : Cats) (pre : List Char)
    (it : CompletionItem) (h : it ∈ allKeywordItems cats pre) :
    it.kind = ItemKind.keywordItem ∧ strStartsWith it.label pre = true := by
  unfold allKeywordItems at h
  rcases List.mem_filterMap.mp h with ⟨kv, hkv, hf⟩
  by_cases hs : strStartsWith kv.1 pre = true
  · rw [if_pos hs] at hf
    obtain rfl := Option.some.inj hf
    exact ⟨rfl, hs⟩
  · rw [if_neg hs] at hf
    cases hf

/-- Claim C9 (amended): every returned completion item's label starts with
the prefix portion used to select it — category (module) items' labels
start with the line prefix up to the cursor, and keyword items' labels
start with the item-portion after the first dot trimmed of surrounding
whitespace when the prefix contains a dot, or with the raw prefix when it
does not. -/
theorem completion_label_containment (cats : Cats) (docs : DocStore)
    (uri : List Char) (line ch : Nat) (content l pre : List Char)
    (items : List CompletionItem)
    (hc : get_document_content docs uri = some content)
    (hl : (rustLines content)[line]? = some l)
    (hp : byteSliceTo l ch = Except.ok pre)
    (hres : completion cats docs uri line ch = Except.ok (some items)) :
    ∀ it ∈ items,
      (it.kind = ItemKind.moduleItem → strStartsWith it.label pre = true) ∧
      (it.kind = ItemKind.keywordItem →
        (∀ q : List Char × List Char, splitOnceDot pre = some q →
          strStartsWith it.label (trimChars q.2) = true) ∧
        (splitOnceDot pre = none → strStartsWith it.label pre = true)) := by
  unfold completion at hres
  simp only [hc, hl, hp] at hres
  cases hsplit : splitOnceDot pre with
  | some cp =>
    simp only [hsplit] at hres
    cases hcat : mapLookup cats cp.1 with
    | some cd =>
      simp only [hcat, Except.ok.injEq, Option.some.injEq] at hres
      subst hres
      intro it hit
      rcases List.mem_append.mp hit with h1 | h1
      · obtain ⟨hk, hsw⟩ := mem_categoryItems cats pre it h1
        refine ⟨fun _ => hsw, ?_⟩
        intro hk2
        rw [hk] at hk2
        exact absurd hk2 (by decide)
      · obtain ⟨hk, hsw⟩ := mem_keywordItemsOfCat cd cp.2 it h1
        refine ⟨?_, ?_⟩
        · intro hk2
          rw [hk] at hk2
          exact absurd hk2 (by decide)
        · intro _
          refine ⟨?_, ?_⟩
          · intro q hq
            obtain rfl := Option.some.inj hq
            exact hsw
          · intro hq
            cases hq
    | none =>
      simp only [hcat, Except.ok.injEq, Option.some.injEq] at hres
      subst hres
      intro it hit
      obtain ⟨hk, hsw⟩ := mem_categoryItems cats pre it hit
      refine ⟨fun _ => hsw, ?_⟩
      intro hk2
      rw [hk] at hk2
      exact absurd hk2 (by decide)
  | none =>
    simp only [hsplit, Except.ok.injEq, Option.some.injEq] at hres
    subst hres
    intro it hit
    rcases List.mem_append.mp hit with h1 | h1
    · obtain ⟨hk, hsw⟩ := mem_categoryItems cats pre it h1
      refine ⟨fun _ => hsw, ?_⟩
      intro hk2
      rw [hk] at hk2
      exact absurd hk2 (by decide)
    · obtain ⟨hk, hsw⟩ := mem_allKeywordItems cats pre it h1
      refine ⟨?_, ?_⟩
      · intro hk2
        rw [hk] at hk2
        exact absurd hk2 (by decide)
      · intro _
        refine ⟨?_, fun _ => hsw⟩
        intro q hq
        cases hq

/-- Claim C9 counterexample: with the scenario knowledge base and the line
`"math. a"` (cursor at column 7), the handler returns the keyword item
`"add"`, selected with the trimmed item-portion `"a"`, but `"add"` does
not start with the raw item-portion `" a"` that follows the first dot. -/
theorem completion_label_raw_dot_portion_fails :
    completion catsEx (did_open [] ("u".toList) ("math. a".toList))
        ("u".toList) 0 7 =
      Except.ok (some [⟨"add".toList, ItemKind.keywordItem,
        "Adds two numbers".toList, "add".toList, false⟩]) ∧
    splitOnceDot ("math. a".toList) = some ("math".toList, " a".toList) ∧
    strStartsWith ("add".toList) (" a".toList) = false ∧
    byteSliceTo ("math. a".toList) 7 = Except.ok ("math. a".toList) :=
  ⟨rfl, rfl, rfl, rfl⟩

/-- Witness for claim C9: the concrete request of the counterexample
satisfies every hypothesis of `completion_label_containment`, and its
single returned item obeys the amended containment property. -/
theorem completion_label_containment_witness :
    get_document_content (did_open [] ("u".toList) ("math. a".toList))
        ("u".toList) = some ("math. a".toList) ∧
    (rustLines ("math. a".toList))[(0 : Nat)]? = some ("math. a".toList) ∧
    byteSliceTo ("math. a".toList) 7 = Except.ok ("math. a".toList) ∧
    completion catsEx (did_open [] ("u".toList) ("math. a".toList))
        ("u".toList) 0 7 =
      Except.ok (some [⟨"add".toList, ItemKind.keywordItem,
        "Adds two numbers".toList, "add".toList, false⟩]) ∧
    ∀ it ∈ [(⟨"add".toList, ItemKind.keywordItem,
        "Adds two numbers".toList, "add".toList, false⟩ : CompletionItem)],
      (it.kind = ItemKind.moduleItem →
        strStartsWith it.label ("math. a".toList) = true) ∧
      (it.kind = ItemKind.keywordItem →
        (∀ q : List Char × List Char,
          splitOnceDot ("math. a".toList) = some q →
          strStartsWith it.label (trimChars q.2) = true) ∧
        (splitOnceDot ("math. a".toList) = none →
          strStartsWith it.label ("math. a".toList) = true)) :=
  ⟨rfl, rfl, rfl, rfl,
    completion_label_containment catsEx
      (did_open [] ("u".toList) ("math. a".toList)) ("u".toList) 0 7
      ("math. a".toList) ("math. a".toList) ("math. a".toList)
      [⟨"add".toList, ItemKind.keywordItem,
        "Adds two numbers".toList, "add".toList, false⟩]
      rfl rfl rfl rfl⟩

/-- Claim C10: the completion handler never answers with an absent
response: whatever the request, the result is never `Ok(None)`; for a uri
that was never opened, and for a line index past the document's last line,
it is a present but empty list — whereas hover answers with an absent
result for an unknown document. -/
theorem completion_always_present (cats : Cats) (docs : DocStore)
    (uri : List Char) (line ch : Nat) :
    completion cats docs uri line ch ≠ Except.ok none ∧
    (get_document_content docs uri = none →
      completion cats docs uri line ch = Except.ok (some [])) ∧
    (∀ content, get_document_content docs uri = some content →
      (rustLines content).length ≤ line →
      completion cats docs uri line ch = Except.ok (some [])) ∧
    (get_document_content docs uri = none →
      hover cats docs uri line ch = none) := by
  refine ⟨?_, ?_, ?_, ?_⟩
  · unfold completion
    split
    · simp
    · split
      · simp
      · split
        · simp
        · split
          · split
            · simp
            · simp
          · simp
  · intro h
    simp [completion, h]
  · intro content h hlen
    have hnone : (rustLines content)[line]? = none := List.getElem?_eq_none hlen
    simp [completion, h, hnone]
  · intro h
    simp [hover, h]

/-- Witness for claim C10: an unopened uri yields the present empty list
and an absent hover, and a line index past the single line of `"x"` also
yields the present empty list. -/
theorem completion_always_present_witness :
    completion [] [] ("u".toList) 0 0 = Except.ok (some []) ∧
    completion [] (did_open [] ("u".toList) ("x".toList)) ("u".toList) 5 0 =
      Except.ok (some []) ∧
    hover [] [] ("u".toList) 0 0 = none :=
  ⟨(completion_always_present [] [] ("u".toList) 0 0).2.1 rfl,
   (completion_always_present [] (did_open [] ("u".toList) ("x".toList))
      ("u".toList) 5 0).2.2.1 ("x".toList) rfl (by decide),
   (completion_always_present [] [] ("u".toList) 0 0).2.2.2 rfl⟩
